import Mathlib

/-!
Verification of icloud_media_manager.py: a shallow embedding of its pure
data transformations and of the effect traces of its stateful functions
(completion ledger, download worker, delete worker, batch scheduler,
metadata-repair pass), with theorems settling the specification claims.

File contents are modelled as lists of characters, the archive container
as an association list from entry name to payload bytes, and remote
behaviour (whether a given download, delete, zip write or log append
succeeds) as explicit oracles, so that every Python exception path of the
source becomes an explicit branch.
-/

namespace ICloudMedia

/-- Payload bytes of one media item. -/
abbrev Bytes := List Nat

/-- The characters Python's str.splitlines treats as line boundaries. -/
def isLineBreak (c : Char) : Bool :=
  c = '\n' || c = '\r' || c = Char.ofNat 11 || c = Char.ofNat 12 ||
  c = Char.ofNat 28 || c = Char.ofNat 29 || c = Char.ofNat 30 ||
  c = Char.ofNat 133 || c = Char.ofNat 8232 || c = Char.ofNat 8233

/-- Python str.splitlines on a character list, accumulating the current
line in reverse; the flag records that the previous character was a
carriage return, so that a following line feed is swallowed (a CRLF pair
is one boundary); a trailing boundary produces no empty final line. -/
def pySplitlinesAux : List Char → List Char → Bool → List String
  | [], acc, _ => if acc.isEmpty then [] else [String.mk acc.reverse]
  | c :: rest, acc, afterCR =>
    if afterCR && c = '\n' then
      pySplitlinesAux rest acc false
    else if c = '\r' then
      String.mk acc.reverse :: pySplitlinesAux rest [] true
    else if isLineBreak c then
      String.mk acc.reverse :: pySplitlinesAux rest [] false
    else
      pySplitlinesAux rest (c :: acc) false

/-- Python str.splitlines. -/
def pySplitlines (s : List Char) : List String :=
  pySplitlinesAux s [] false

/-- On-disk view of the completion log file: whether the path exists,
whether opening it for reading succeeds, and its byte content. -/
structure FileState where
  fsExists : Bool
  readable : Bool
  content : List Char
deriving DecidableEq

/-- load_downloaded_files: if the path exists, open and read it and return
the set of its lines; opening an unreadable file raises (no handler in the
source, so the error propagates); if the path does not exist, return the
empty set. -/
def load_downloaded_files (f : FileState) : Except String (Finset String) :=
  if f.fsExists then
    if f.readable then Except.ok (pySplitlines f.content).toFinset
    else Except.error "IOError"
  else Except.ok ∅

/-- append_to_downloaded_files: open the log in append mode and write the
filename followed by a newline. -/
def append_to_downloaded_files (logContent : List Char) (filename : String) :
    List Char :=
  logContent ++ filename.data ++ ['\n']

/-- One remote media item: its filename (the identifier used everywhere)
and its creation timestamp. -/
structure Photo where
  filename : String
  created : Nat
deriving DecidableEq

/-- Failure oracle for one item's processing: the result of the n-th call
to photo.download (counted from 1, none meaning the call or the body read
raises), and whether the zip append and the log append succeed. -/
structure ItemBehavior where
  dl : Nat → Option Bytes
  zipOk : Bool
  appendOk : Bool

/-- The shared mutable state a download worker touches: the zip archive
(entry name, payload) in append order, the completion log file content,
and the in-memory downloaded_files set loaded at run start. -/
structure WorldState where
  zipEntries : List (String × Bytes)
  logContent : List Char
  memSet : Finset String
deriving DecidableEq

/-- What one call to download_and_compress produced: the returned
(filename, success) pair, the state after the call, and how many remote
download calls were made. -/
structure DownloadResult where
  outcome : String × Bool
  state : WorldState
  attempts : Nat
deriving DecidableEq

/-- download_and_compress: skip with success if the filename is already in
the in-memory set; otherwise call photo.download once, write the bytes
into the zip under the lock, then append the filename to the log. Any
exception yields a (filename, false) return with no further action; the
in-memory set is never mutated. The temp_dir branch of the source differs
only in staging the bytes through a temporary file (metadata adjustment
there swallows its own errors), so both branches produce the same archive
entry; its extra failure points are folded into the zip-write oracle. -/
def download_and_compress (photo : Photo) (beh : ItemBehavior)
    (st : WorldState) : DownloadResult :=
  if photo.filename ∈ st.memSet then
    ⟨(photo.filename, true), st, 0⟩
  else
    match beh.dl 1 with
    | none => ⟨(photo.filename, false), st, 1⟩
    | some data =>
      if beh.zipOk then
        let st1 := { st with zipEntries := st.zipEntries ++ [(photo.filename, data)] }
        if beh.appendOk then
          ⟨(photo.filename, true),
            { st1 with
              logContent := append_to_downloaded_files st1.logContent photo.filename },
            1⟩
        else ⟨(photo.filename, false), st1, 1⟩
      else ⟨(photo.filename, false), st, 1⟩

/-- delete_photo's loop body over the remaining attempt numbers (the
Python for-range): try the delete; on success return True; on failure, if
attempts remain sleep 2 to the power attempt and continue, else return
False. The returned list records the sleep durations in order. A
zero-iteration loop falls off the function and returns Python None,
modelled as none. -/
def delete_photoLoop (del : Nat → Bool) (max_retries : Nat) :
    List Nat → Option Bool × List Nat
  | [] => (none, [])
  | attempt :: rest =>
    if del attempt then (some true, [])
    else if attempt < max_retries then
      let r := delete_photoLoop del max_retries rest
      (r.1, 2 ^ attempt :: r.2)
    else (some false, [])

/-- delete_photo: for attempt in range(1, max_retries + 1). -/
def delete_photo (del : Nat → Bool) (max_retries : Nat := 3) :
    Option Bool × List Nat :=
  delete_photoLoop del max_retries (List.range' 1 max_retries)

/-- The batch-fetch loop shared by process_photos_in_batches and
delete_photos_in_batches: repeatedly pull up to batch_size items off the
iterator; an empty batch ends the loop. -/
def fetchBatches (bs : Nat) (l : List α) : List (List α) :=
  if h : (l.take bs).isEmpty then []
  else l.take bs :: fetchBatches bs (l.drop bs)
termination_by l.length
decreasing_by
  rw [List.isEmpty_iff, List.take_eq_nil_iff] at h
  push_neg at h
  have h0 : l ≠ [] := h.2
  have : 0 < l.length := List.length_pos.mpr h0
  simp [List.length_drop]
  omega

/-- One batch of the download run: every submitted worker call completes
(its outcome is collected) with the shared state threaded through. -/
def runBatch (beh : Photo → ItemBehavior) (st : WorldState)
    (batch : List Photo) : WorldState × List (String × Bool) :=
  batch.foldl
    (fun acc p =>
      let r := download_and_compress p (beh p) acc.1
      (r.state, acc.2 ++ [r.outcome]))
    (st, [])

/-- process_photos_in_batches: fetch batches in listing order and run each
to completion before the next starts; outcomes are grouped per batch. -/
def process_photos_in_batches (bs : Nat) (photos : List Photo)
    (beh : Photo → ItemBehavior) (st : WorldState) :
    WorldState × List (List (String × Bool)) :=
  (fetchBatches bs photos).foldl
    (fun acc batch =>
      let r := runBatch beh acc.1 batch
      (r.1, acc.2 ++ [r.2]))
    (st, [])

/-- Reference recursion for the scheduler trace: the outcome lists of the
batches in order, each produced from the state left by all earlier
batches. -/
def scanBatches (beh : Photo → ItemBehavior) (st : WorldState) :
    List (List Photo) → List (List (String × Bool))
  | [] => []
  | b :: rest =>
    (runBatch beh st b).2 :: scanBatches beh (runBatch beh st b).1 rest

/-- Python "newline".join: the failure identifiers separated by newlines,
with no trailing newline. -/
def joinWithNewlines : List String → List Char
  | [] => []
  | [s] => s.data
  | s :: t :: rest => s.data ++ '\n' :: joinWithNewlines (t :: rest)

/-- delete_photos_in_batches, reduced to its observable effects: photos
are consumed batch by batch, each deleted sequentially through
delete_photo with the default retry limit; at the end the failure log is
written (mode w) with the newline-joined failed filenames only when at
least one deletion failed, otherwise the file is left untouched. -/
def delete_photos_in_batches (photos : List Photo) (del : Photo → Nat → Bool)
    (batch_size : Nat) (prevLog : Option (List Char)) : Option (List Char) :=
  let failed :=
    ((fetchBatches batch_size photos).flatten).filterMap
      (fun p =>
        if (delete_photo (del p)).1 = some true then none else some p.filename)
  if failed.isEmpty then prevLog else some (joinWithNewlines failed)

/-- Filesystem view seen by update_metadata_in_zip: existence of the
completion log and of the zip, the ledger content, the current zip
entries, and the remote photo listing. -/
structure RepairFS where
  ledgerExists : Bool
  zipExists : Bool
  ledger : Finset String
  zipEntries : List (String × Bytes)
  photos : List Photo

/-- Reading one named entry from a name-to-bytes association list. -/
def zipLookup (entries : List (String × Bytes)) (n : String) : Option Bytes :=
  (entries.find? (fun e => e.1 = n)).map (·.2)

/-- The primitive filesystem operations update_metadata_in_zip performs
after its existence guard, in program order: extraction of one recorded
entry into the scratch directory (a missing entry raises KeyError, caught
and skipped), writing one scratch file into the rebuilt zip at its
temporary path, and the final os.replace of the original zip. -/
inductive RepairOp where
  | extract (name : String)
  | writeTemp (name : String)
  | replace
deriving DecidableEq

/-- State of the three locations the repair pass touches: the scratch
directory, the rebuilt zip at its temporary path, and the original zip
path. -/
structure RepairState where
  extractedDir : List (String × Bytes)
  tempZip : List (String × Bytes)
  zipPath : List (String × Bytes)
deriving DecidableEq

/-- Effect of one repair operation. Only the final replace touches the
original zip path. -/
def applyRepairOp (st : RepairState) : RepairOp → RepairState
  | RepairOp.extract n =>
    match zipLookup st.zipPath n with
    | some b => { st with extractedDir := st.extractedDir ++ [(n, b)] }
    | none => st
  | RepairOp.writeTemp n =>
    match zipLookup st.extractedDir n with
    | some b => { st with tempZip := st.tempZip ++ [(n, b)] }
    | none => st
  | RepairOp.replace => { st with zipPath := st.tempZip }

/-- The names the extraction loop attempts: photos of the current remote
listing whose filename is recorded in the ledger, in listing order. -/
def extractNames (fs : RepairFS) : List String :=
  (fs.photos.filter (fun p => p.filename ∈ fs.ledger)).map Photo.filename

/-- The operation trace of update_metadata_in_zip once the guard passed:
one extraction attempt per recorded listed photo, one rebuilt-zip write
per scratch file the walk finds (exactly the successfully extracted
names), then the single replace. -/
def repairOps (fs : RepairFS) : List RepairOp :=
  (extractNames fs).map RepairOp.extract
    ++ ((extractNames fs).filter
        (fun n => (zipLookup fs.zipEntries n).isSome)).map RepairOp.writeTemp
    ++ [RepairOp.replace]

/-- Content of the original zip path if execution stops after the first k
repair operations (k larger than the trace means the pass ran to the
end); when either the ledger or the zip is missing the guard returns at
once and nothing happens. -/
def update_metadata_in_zip_upto (fs : RepairFS) (k : Nat) :
    List (String × Bytes) :=
  if fs.ledgerExists && fs.zipExists then
    (((repairOps fs).take k).foldl applyRepairOp
      ⟨[], [], fs.zipEntries⟩).zipPath
  else fs.zipEntries

/-- update_metadata_in_zip: the full run, i.e. the whole operation trace
applied. -/
def update_metadata_in_zip (fs : RepairFS) : List (String × Bytes) :=
  if fs.ledgerExists && fs.zipExists then
    ((repairOps fs).foldl applyRepairOp ⟨[], [], fs.zipEntries⟩).zipPath
  else fs.zipEntries

/-! Theorems settling the claims. -/

/-- C1 is false of the code: with a primitive download action that fails
on attempt 1 and would succeed on attempt 2 (well within max_retries 3),
the download worker returns a failure outcome having made exactly one
remote download call — it never reaches the attempt that would succeed,
so the download path has no retry. -/
theorem download_retry_claim_cex :
    (download_and_compress ⟨"x", 0⟩
        ⟨fun n => if n = 1 then none else some [7], true, true⟩
        ⟨[], [], ∅⟩).outcome.2 = false ∧
    (download_and_compress ⟨"x", 0⟩
        ⟨fun n => if n = 1 then none else some [7], true, true⟩
        ⟨[], [], ∅⟩).attempts = 1 ∧
    (fun n => if n = 1 then (none : Option Bytes) else some [7]) 2
      = some [7] := by
  decide

/-- C1 (amended): for an item not already in the ledger the download
worker calls the remote download exactly once; a failure of that single
attempt immediately yields a failure outcome with the shared state
unchanged — there is no retry loop in the download path (bounded retry
with backoff exists only in the delete variant, delete_photo). -/
theorem download_single_attempt (photo : Photo) (beh : ItemBehavior)
    (st : WorldState) (h : photo.filename ∉ st.memSet) :
    (download_and_compress photo beh st).attempts = 1 ∧
    (beh.dl 1 = none →
      (download_and_compress photo beh st).outcome.2 = false ∧
      (download_and_compress photo beh st).state = st) := by
  unfold download_and_compress
  rw [if_neg h]
  cases hd : beh.dl 1 with
  | none => simp
  | some data =>
    refine ⟨?_, by simp⟩
    by_cases hz : beh.zipOk <;> by_cases ha : beh.appendOk <;> simp [hz, ha]

/-- Witness for download_single_attempt at a concrete fresh item whose
download raises. -/
theorem download_single_attempt_witness :
    (download_and_compress ⟨"x", 0⟩ ⟨fun _ => none, true, true⟩
        ⟨[], [], ∅⟩).attempts = 1 ∧
    ((fun _ => (none : Option Bytes)) 1 = none →
      (download_and_compress ⟨"x", 0⟩ ⟨fun _ => none, true, true⟩
          ⟨[], [], ∅⟩).outcome.2 = false ∧
      (download_and_compress ⟨"x", 0⟩ ⟨fun _ => none, true, true⟩
          ⟨[], [], ∅⟩).state = ⟨[], [], ∅⟩) :=
  download_single_attempt ⟨"x", 0⟩ ⟨fun _ => none, true, true⟩
    ⟨[], [], ∅⟩ (by decide)

/-- C2: an identifier already in the in-memory ledger set at run start is
skipped with a success outcome, zero remote download calls, and the state
(archive, log, set) unchanged. -/
theorem dedup_skips_recorded (photo : Photo) (beh : ItemBehavior)
    (st : WorldState) (h : photo.filename ∈ st.memSet) :
    download_and_compress photo beh st = ⟨(photo.filename, true), st, 0⟩ := by
  simp [download_and_compress, h]

/-- Witness for dedup_skips_recorded on a ledger already holding the
item. -/
theorem dedup_skips_recorded_witness :
    download_and_compress ⟨"a", 0⟩ ⟨fun _ => some [1], true, true⟩
        ⟨[], [], {"a"}⟩
      = ⟨("a", true), ⟨[], [], {"a"}⟩, 0⟩ :=
  dedup_skips_recorded ⟨"a", 0⟩ ⟨fun _ => some [1], true, true⟩
    ⟨[], [], {"a"}⟩ (by decide)

/-- C3: the completion log gains an identifier only after the archive
entry is committed — whenever the worker changed the log, the archive
holds an entry for the item — and a failure outcome for an item not
already in the ledger leaves the completion log unchanged. -/
theorem record_only_after_commit (photo : Photo) (beh : ItemBehavior)
    (st : WorldState) (h : photo.filename ∉ st.memSet) :
    ((download_and_compress photo beh st).state.logContent ≠ st.logContent →
      ∃ b, (photo.filename, b) ∈
        (download_and_compress photo beh st).state.zipEntries) ∧
    ((download_and_compress photo beh st).outcome.2 = false →
      (download_and_compress photo beh st).state.logContent
        = st.logContent) := by
  unfold download_and_compress
  rw [if_neg h]
  cases hd : beh.dl 1 with
  | none => simp
  | some data =>
    by_cases hz : beh.zipOk <;> by_cases ha : beh.appendOk <;>
      simp [hz, ha, append_to_downloaded_files]

/-- Witness for record_only_after_commit at a fresh item that downloads
and commits successfully. -/
theorem record_only_after_commit_witness :
    ((download_and_compress ⟨"a", 0⟩ ⟨fun _ => some [1], true, true⟩
          ⟨[], [], ∅⟩).state.logContent ≠ [] →
      ∃ b, ("a", b) ∈
        (download_and_compress ⟨"a", 0⟩ ⟨fun _ => some [1], true, true⟩
            ⟨[], [], ∅⟩).state.zipEntries) ∧
    ((download_and_compress ⟨"a", 0⟩ ⟨fun _ => some [1], true, true⟩
          ⟨[], [], ∅⟩).outcome.2 = false →
      (download_and_compress ⟨"a", 0⟩ ⟨fun _ => some [1], true, true⟩
          ⟨[], [], ∅⟩).state.logContent = []) :=
  record_only_after_commit ⟨"a", 0⟩ ⟨fun _ => some [1], true, true⟩
    ⟨[], [], ∅⟩ (by decide)

/-- C4 is false of the code: after one successful fresh download the
on-disk log holds the identifier while the in-memory set does not — the
record step appends to the log but never inserts into the set, so during
a run the two diverge. -/
theorem record_set_divergence_cex :
    "a" ∈ pySplitlines (download_and_compress ⟨"a", 0⟩
        ⟨fun _ => some [1], true, true⟩ ⟨[], [], ∅⟩).state.logContent ∧
    "a" ∉ (download_and_compress ⟨"a", 0⟩
        ⟨fun _ => some [1], true, true⟩ ⟨[], [], ∅⟩).state.memSet := by
  decide

/-- C4 (amended): recording a completed identifier performs a synchronous
append to the on-disk log only; the worker never inserts into the
in-memory set (which therefore lags the log until the next run reloads
it), and no mutual exclusion guards the append. -/
theorem record_appends_log_only (photo : Photo) (beh : ItemBehavior)
    (st : WorldState) :
    (download_and_compress photo beh st).state.memSet = st.memSet ∧
    (photo.filename ∉ st.memSet →
      (download_and_compress photo beh st).outcome.2 = true →
      (download_and_compress photo beh st).state.logContent
        = append_to_downloaded_files st.logContent photo.filename) := by
  unfold download_and_compress
  by_cases h : photo.filename ∈ st.memSet
  · simp [h]
  · rw [if_neg h]
    cases hd : beh.dl 1 with
    | none => simp
    | some data =>
      by_cases hz : beh.zipOk <;> by_cases ha : beh.appendOk <;>
        simp [h, hz, ha]

/-- Witness for record_appends_log_only at a fresh successful download. -/
theorem record_appends_log_only_witness :
    (download_and_compress ⟨"a", 0⟩ ⟨fun _ => some [1], true, true⟩
        ⟨[], [], ∅⟩).state.memSet = ∅ ∧
    ("a" ∉ (∅ : Finset String) →
      (download_and_compress ⟨"a", 0⟩ ⟨fun _ => some [1], true, true⟩
          ⟨[], [], ∅⟩).outcome.2 = true →
      (download_and_compress ⟨"a", 0⟩ ⟨fun _ => some [1], true, true⟩
          ⟨[], [], ∅⟩).state.logContent
        = append_to_downloaded_files [] "a") :=
  record_appends_log_only ⟨"a", 0⟩ ⟨fun _ => some [1], true, true⟩ ⟨[], [], ∅⟩

/-- C7 is false of the code: an existing but unreadable log makes
load_downloaded_files raise the I/O error instead of returning the empty
set. -/
theorem load_unreadable_cex :
    load_downloaded_files ⟨true, false, ['x']⟩ = Except.error "IOError" ∧
    load_downloaded_files ⟨true, false, ['x']⟩ ≠ Except.ok ∅ := by
  constructor
  · rfl
  · simp [load_downloaded_files]

/-- C7 (amended): the load operation returns the empty set when no log
file exists, and the set of the log's newline-delimited lines when it
exists and is readable; an existing but unreadable log raises the I/O
error (first-run fail-soft applies only to a missing file). -/
theorem load_log_semantics (f : FileState) :
    (f.fsExists = false → load_downloaded_files f = Except.ok ∅) ∧
    (f.fsExists = true → f.readable = true →
      load_downloaded_files f
        = Except.ok (pySplitlines f.content).toFinset) ∧
    (f.fsExists = true → f.readable = false →
      load_downloaded_files f = Except.error "IOError") := by
  unfold load_downloaded_files
  rcases f with ⟨e, r, c⟩
  cases e <;> cases r <;> simp

/-- Witness for load_log_semantics on a missing file. -/
theorem load_log_semantics_witness :
    ((false : Bool) = false →
      load_downloaded_files ⟨false, true, []⟩ = Except.ok ∅) ∧
    ((false : Bool) = true → (true : Bool) = true →
      load_downloaded_files ⟨false, true, []⟩
        = Except.ok (pySplitlines []).toFinset) ∧
    ((false : Bool) = true → (true : Bool) = false →
      load_downloaded_files ⟨false, true, []⟩ = Except.error "IOError") :=
  load_log_semantics ⟨false, true, []⟩

/-- If the attempts from a up to a + K - 1 all fail and attempt a + K
(still within range) succeeds, the retry loop returns True after backoff
sleeps of 2 to the powers a, ..., a + K - 1. -/
theorem delete_photoLoop_succeeds (del : Nat → Bool) (mr : Nat) :
    ∀ (K a n : Nat), a + n = mr + 1 → K < n →
      (∀ m, a ≤ m → m < a + K → del m = false) → del (a + K) = true →
      delete_photoLoop del mr (List.range' a n)
        = (some true, (List.range K).map (fun i => 2 ^ (a + i))) := by
  intro K
  induction K with
  | zero =>
    intro a n hn hK hfail hsucc
    obtain ⟨n', rfl⟩ : ∃ n', n = n' + 1 := ⟨n - 1, by omega⟩
    rw [List.range'_succ]
    simp only [Nat.add_zero] at hsucc
    simp [delete_photoLoop, hsucc]
  | succ K ih =>
    intro a n hn hK hfail hsucc
    obtain ⟨n', rfl⟩ : ∃ n', n = n' + 1 := ⟨n - 1, by omega⟩
    rw [List.range'_succ]
    have hda : del a = false := hfail a le_rfl (by omega)
    have halt : a < mr := by omega
    simp only [delete_photoLoop, hda, halt, if_true, if_false, Bool.false_eq_true,
      ite_false, ite_true]
    rw [ih (a + 1) n' (by omega) (by omega)
      (fun m hm hm2 => hfail m (by omega) (by omega))
      (by rw [show a + 1 + K = a + (K + 1) by omega]; exact hsucc)]
    rw [List.range_succ_eq_map, List.map_cons, List.map_map]
    simp only [Prod.mk.injEq, List.cons.injEq]
    refine ⟨trivial, ?_, ?_⟩
    · rw [Nat.add_zero]
    · apply List.map_congr_left
      intro i _
      simp only [Function.comp_apply]
      congr 1
      omega

/-- If every attempt in the remaining range fails, the retry loop returns
False. -/
theorem delete_photoLoop_fails (del : Nat → Bool) (mr : Nat) :
    ∀ (n a : Nat), a + n = mr + 1 → 1 ≤ n →
      (∀ m, a ≤ m → m ≤ mr → del m = false) →
      (delete_photoLoop del mr (List.range' a n)).1 = some false := by
  intro n
  induction n with
  | zero => intro a hn h1 hfail; omega
  | succ n ih =>
    intro a hn h1 hfail
    rw [List.range'_succ]
    have hda : del a = false := hfail a le_rfl (by omega)
    by_cases hlt : a < mr
    · have hn1 : 1 ≤ n := by omega
      simp only [delete_photoLoop, hda, hlt, Bool.false_eq_true, ite_false,
        ite_true]
      exact ih (a + 1) (by omega) hn1
        (fun m hm hm2 => hfail m (by omega) hm2)
    · simp [delete_photoLoop, hda, hlt]

/-- C6: if the delete action fails on attempts 1 through K and succeeds
on attempt K + 1 with K + 1 within the retry limit, delete_photo returns
True having slept exactly the K intervals 2, 4, ..., 2 to the K, in
order; and if every attempt up to the limit fails, delete_photo returns
False. -/
theorem delete_retry_backoff (del del2 : Nat → Bool) (K mr mr2 : Nat)
    (h1 : ∀ n, 1 ≤ n → n ≤ K → del n = false) (h2 : del (K + 1) = true)
    (h3 : K + 1 ≤ mr) (h4 : 1 ≤ mr2)
    (h5 : ∀ n, 1 ≤ n → n ≤ mr2 → del2 n = false) :
    delete_photo del mr
      = (some true, (List.range K).map (fun i => 2 ^ (i + 1))) ∧
    (delete_photo del2 mr2).1 = some false := by
  constructor
  · unfold delete_photo
    rw [delete_photoLoop_succeeds del mr K 1 mr (by omega) (by omega)
      (fun m hm hm2 => h1 m hm (by omega))
      (by rw [show 1 + K = K + 1 by omega]; exact h2)]
    simp only [Prod.mk.injEq]
    refine ⟨trivial, ?_⟩
    apply List.map_congr_left
    intro i _
    congr 1
    omega
  · exact delete_photoLoop_fails del2 mr2 mr2 1 (by omega) h4 h5

/-- Witness for delete_retry_backoff: one failure then success sleeps
exactly 2 seconds; an always-failing action exhausts the limit. -/
theorem delete_retry_backoff_witness :
    delete_photo (fun n => n == 2) 3
      = (some true, (List.range 1).map (fun i => 2 ^ (i + 1))) ∧
    (delete_photo (fun _ => false) 3).1 = some false :=
  delete_retry_backoff (fun n => n == 2) (fun _ => false) 1 3 3
    (by
      intro n hn hn2
      have hn3 : n = 1 := by omega
      subst hn3
      decide)
    (by decide) (by decide) (by decide)
    (fun n h h2 => rfl)

/-- The batch loop produces nothing from an exhausted iterator. -/
theorem fetchBatches_nil (bs : Nat) : fetchBatches bs ([] : List α) = [] := by
  rw [fetchBatches]
  simp

/-- With a positive batch size and items remaining, one loop iteration
takes the next batch_size items and continues on the rest. -/
theorem fetchBatches_cons (bs : Nat) (hbs : 0 < bs) (l : List α)
    (hl : l ≠ []) :
    fetchBatches bs l = l.take bs :: fetchBatches bs (l.drop bs) := by
  have hg : ¬((l.take bs).isEmpty = true) := by
    rw [List.isEmpty_iff, List.take_eq_nil_iff]
    push_neg
    exact ⟨by omega, hl⟩
  rw [fetchBatches, dif_neg hg]

/-- The batches concatenate back to the item list. -/
theorem fetchBatches_flatten_bounded (bs : Nat) (hbs : 0 < bs) :
    ∀ (n : Nat) (l : List α), l.length ≤ n →
      (fetchBatches bs l).flatten = l := by
  intro n
  induction n with
  | zero =>
    intro l hl
    have h0 : l = [] := List.length_eq_zero.mp (by omega)
    subst h0
    simp [fetchBatches_nil]
  | succ n ih =>
    intro l hl
    rcases eq_or_ne l [] with rfl | hl0
    · simp [fetchBatches_nil]
    · rw [fetchBatches_cons bs hbs l hl0]
      simp only [List.flatten_cons]
      rw [ih (l.drop bs) ?_]
      · exact List.take_append_drop bs l
      · have hp : 0 < l.length := List.length_pos.mpr hl0
        simp only [List.length_drop]
        omega

/-- Wrapper of fetchBatches_flatten_bounded at the list's own length. -/
theorem fetchBatches_flatten (bs : Nat) (hbs : 0 < bs) (l : List α) :
    (fetchBatches bs l).flatten = l :=
  fetchBatches_flatten_bounded bs hbs l.length l le_rfl

/-- Every batch is nonempty and no longer than the batch size. -/
theorem fetchBatches_batches_bounded (bs : Nat) :
    ∀ (n : Nat) (l : List α), l.length ≤ n →
      ∀ b ∈ fetchBatches bs l, b ≠ [] ∧ b.length ≤ bs := by
  intro n
  induction n with
  | zero =>
    intro l hl b hb
    have h0 : l = [] := List.length_eq_zero.mp (by omega)
    subst h0
    rw [fetchBatches_nil] at hb
    simp at hb
  | succ n ih =>
    intro l hl b hb
    rw [fetchBatches] at hb
    split at hb
    · simp at hb
    · rename_i hg
      rw [List.isEmpty_iff] at hg
      rcases List.mem_cons.mp hb with rfl | hb2
      · exact ⟨hg, List.length_take_le bs l⟩
      · have hl0 : l ≠ [] := by
          intro e
          rw [e] at hg
          simp at hg
        have hp : 0 < l.length := List.length_pos.mpr hl0
        have hbs0 : bs ≠ 0 := by
          intro e
          rw [e] at hg
          simp at hg
        exact ih (l.drop bs)
          (by simp only [List.length_drop]; omega) b hb2

/-- Every batch except possibly the last has length exactly the batch
size. -/
theorem fetchBatches_dropLast_sized (bs : Nat) (hbs : 0 < bs) :
    ∀ (n : Nat) (l : List α), l.length ≤ n →
      ∀ b ∈ (fetchBatches bs l).dropLast, b.length = bs := by
  intro n
  induction n with
  | zero =>
    intro l hl b hb
    have h0 : l = [] := List.length_eq_zero.mp (by omega)
    subst h0
    rw [fetchBatches_nil] at hb
    simp at hb
  | succ n ih =>
    intro l hl b hb
    rcases eq_or_ne l [] with rfl | hl0
    · rw [fetchBatches_nil] at hb
      simp at hb
    · have hp : 0 < l.length := List.length_pos.mpr hl0
      rw [fetchBatches_cons bs hbs l hl0] at hb
      rcases eq_or_ne (fetchBatches bs (l.drop bs)) [] with he | he
      · rw [he] at hb
        simp at hb
      · rw [List.dropLast_cons_of_ne_nil he] at hb
        rcases List.mem_cons.mp hb with rfl | hb2
        · have hd : l.drop bs ≠ [] := by
            intro e
            rw [e, fetchBatches_nil] at he
            exact he rfl
          have hlen : bs < l.length := by
            by_contra hc
            push_neg at hc
            exact hd (List.drop_eq_nil_iff.mpr hc)
          rw [List.length_take]
          omega
        · exact ih (l.drop bs)
            (by simp only [List.length_drop]; omega) b hb2

/-- The outcome list of one batch grows by one entry per item. -/
theorem runBatch_foldl_len (beh : Photo → ItemBehavior) :
    ∀ (batch : List Photo) (st : WorldState) (acc : List (String × Bool)),
      (batch.foldl
        (fun a p =>
          let r := download_and_compress p (beh p) a.1
          (r.state, a.2 ++ [r.outcome])) (st, acc)).2.length
        = acc.length + batch.length := by
  intro batch
  induction batch with
  | nil =>
    intro st acc
    simp
  | cons p rest ih =>
    intro st acc
    simp only [List.foldl_cons]
    rw [ih]
    simp only [List.length_append, List.length_cons, List.length_nil]
    omega

/-- One batch produces exactly one outcome per submitted item. -/
theorem runBatch_length (beh : Photo → ItemBehavior) (st : WorldState)
    (batch : List Photo) :
    (runBatch beh st batch).2.length = batch.length := by
  unfold runBatch
  rw [runBatch_foldl_len]
  simp

/-- Per-batch outcome counts agree with batch sizes. -/
theorem scanBatches_map_len (beh : Photo → ItemBehavior) :
    ∀ (bl : List (List Photo)) (st : WorldState),
      (scanBatches beh st bl).map List.length = bl.map List.length := by
  intro bl
  induction bl with
  | nil =>
    intro st
    simp [scanBatches]
  | cons b rest ih =>
    intro st
    simp only [scanBatches, List.map_cons]
    rw [runBatch_length, ih]

/-- The scheduler's fold is the batch-by-batch trace: outcomes are
appended one whole batch at a time, the state left by each batch feeding
the next. -/
theorem process_foldl_scan (beh : Photo → ItemBehavior) :
    ∀ (bl : List (List Photo)) (st : WorldState)
      (acc : List (List (String × Bool))),
      (bl.foldl
        (fun a batch =>
          let r := runBatch beh a.1 batch
          (r.1, a.2 ++ [r.2])) (st, acc)).2
        = acc ++ scanBatches beh st bl := by
  intro bl
  induction bl with
  | nil =>
    intro st acc
    simp [scanBatches]
  | cons b rest ih =>
    intro st acc
    simp only [List.foldl_cons]
    rw [ih]
    simp [scanBatches]

/-- C5: the scheduler partitions the item list into consecutive batches
of batch_size (concatenating back to the list, every batch nonempty and
at most batch_size long, all but the last exactly batch_size long),
processes the batches strictly in listing order with the state of each
batch feeding the next, and collects one outcome per submitted item of a
batch before the next batch contributes any outcome. -/
theorem batch_scheduler_partitions (bs : Nat) (photos : List Photo)
    (beh : Photo → ItemBehavior) (st : WorldState) (hbs : 0 < bs) :
    (fetchBatches bs photos).flatten = photos ∧
    (∀ b ∈ fetchBatches bs photos, b ≠ [] ∧ b.length ≤ bs) ∧
    (∀ b ∈ (fetchBatches bs photos).dropLast, b.length = bs) ∧
    (process_photos_in_batches bs photos beh st).2
      = scanBatches beh st (fetchBatches bs photos) ∧
    (scanBatches beh st (fetchBatches bs photos)).map List.length
      = (fetchBatches bs photos).map List.length := by
  refine ⟨fetchBatches_flatten bs hbs photos,
    fun b hb => fetchBatches_batches_bounded bs photos.length photos le_rfl b hb,
    fun b hb =>
      fetchBatches_dropLast_sized bs hbs photos.length photos le_rfl b hb,
    ?_, scanBatches_map_len beh (fetchBatches bs photos) st⟩
  unfold process_photos_in_batches
  rw [process_foldl_scan]
  simp

/-- Witness for batch_scheduler_partitions: three items in batches of
two. -/
theorem batch_scheduler_partitions_witness :
    (fetchBatches 2 [(⟨"a", 0⟩ : Photo), ⟨"b", 0⟩, ⟨"c", 0⟩]).flatten
      = [⟨"a", 0⟩, ⟨"b", 0⟩, ⟨"c", 0⟩] ∧
    (∀ b ∈ fetchBatches 2 [(⟨"a", 0⟩ : Photo), ⟨"b", 0⟩, ⟨"c", 0⟩],
      b ≠ [] ∧ b.length ≤ 2) ∧
    (∀ b ∈ (fetchBatches 2 [(⟨"a", 0⟩ : Photo), ⟨"b", 0⟩, ⟨"c", 0⟩]).dropLast,
      b.length = 2) ∧
    (process_photos_in_batches 2 [⟨"a", 0⟩, ⟨"b", 0⟩, ⟨"c", 0⟩]
        (fun _ => ⟨fun _ => some [1], true, true⟩) ⟨[], [], ∅⟩).2
      = scanBatches (fun _ => ⟨fun _ => some [1], true, true⟩) ⟨[], [], ∅⟩
          (fetchBatches 2 [⟨"a", 0⟩, ⟨"b", 0⟩, ⟨"c", 0⟩]) ∧
    (scanBatches (fun _ => ⟨fun _ => some [1], true, true⟩) ⟨[], [], ∅⟩
        (fetchBatches 2 [⟨"a", 0⟩, ⟨"b", 0⟩, ⟨"c", 0⟩])).map List.length
      = (fetchBatches 2 [(⟨"a", 0⟩ : Photo), ⟨"b", 0⟩, ⟨"c", 0⟩]).map
          List.length :=
  batch_scheduler_partitions 2 [⟨"a", 0⟩, ⟨"b", 0⟩, ⟨"c", 0⟩]
    (fun _ => ⟨fun _ => some [1], true, true⟩) ⟨[], [], ∅⟩ (by decide)

/-- C9 is false of the code: a delete run in which every deletion
succeeds does not touch the failure log, so content left by an earlier
run survives instead of being overwritten. -/
theorem failure_log_stale_cex :
    delete_photos_in_batches [⟨"a", 0⟩] (fun _ _ => true) 1 (some ['x'])
      = some ['x'] ∧ ['x'] ≠ ([] : List Char) := by
  constructor
  · simp [delete_photos_in_batches, fetchBatches, delete_photo,
      delete_photoLoop]
  · simp

/-- C9 (amended): at the end of a delete run the failure log is
overwritten with the newline-joined identifiers of exactly the items
whose deletion failed after retries, in listing order — but only when at
least one deletion failed; a run with no failures leaves the file, and
any content an earlier run left in it, untouched. -/
theorem failure_log_overwrite (photos : List Photo)
    (del : Photo → Nat → Bool) (bs : Nat) (prev : Option (List Char))
    (hbs : 0 < bs) :
    delete_photos_in_batches photos del bs prev
      = (if (photos.filterMap (fun p =>
            if (delete_photo (del p)).1 = some true then none
            else some p.filename)).isEmpty
        then prev
        else
          some (joinWithNewlines (photos.filterMap (fun p =>
            if (delete_photo (del p)).1 = some true then none
            else some p.filename)))) := by
  unfold delete_photos_in_batches
  rw [fetchBatches_flatten bs hbs photos]

/-- Witness for failure_log_overwrite: one item whose deletion always
fails. -/
theorem failure_log_overwrite_witness :
    delete_photos_in_batches [⟨"a", 0⟩] (fun _ _ => false) 1 none
      = (if (([⟨"a", 0⟩] : List Photo).filterMap (fun p =>
            if (delete_photo ((fun _ _ => false) p)).1 = some true then none
            else some p.filename)).isEmpty
        then none
        else
          some (joinWithNewlines (([⟨"a", 0⟩] : List Photo).filterMap
            (fun p =>
              if (delete_photo ((fun _ _ => false) p)).1 = some true
              then none
              else some p.filename)))) :=
  failure_log_overwrite [⟨"a", 0⟩] (fun _ _ => false) 1 none (by decide)

/-- Pushing one break-free line through the splitter: the accumulated
prefix and the line are emitted as one string and splitting continues
after the newline. -/
theorem pySplitlinesAux_line (cs : List Char)
    (h : ∀ c ∈ cs, isLineBreak c = false) :
    ∀ (acc rest : List Char),
      pySplitlinesAux (cs ++ '\n' :: rest) acc false
        = String.mk (acc.reverse ++ cs) :: pySplitlinesAux rest [] false := by
  induction cs with
  | nil =>
    intro acc rest
    simp [pySplitlinesAux, isLineBreak]
  | cons c cs ih =>
    intro acc rest
    have hc : isLineBreak c = false := h c (by simp)
    have hcr : ¬(c = '\r') := by
      intro e
      subst e
      simp [isLineBreak] at hc
    simp only [List.cons_append, pySplitlinesAux, Bool.false_and,
      Bool.false_eq_true, if_false, hc, hcr]
    simp only [List.append_eq]
    rw [ih (fun d hd => h d (by simp [hd])) (c :: acc) rest]
    congr 1
    simp

/-- Appending identifiers one at a time builds the newline-terminated
concatenation. -/
theorem foldl_append_log (ids : List String) :
    ∀ pre : List Char,
      ids.foldl append_to_downloaded_files pre
        = pre ++ (ids.map (fun s => s.data ++ ['\n'])).flatten := by
  induction ids with
  | nil =>
    intro pre
    simp
  | cons s rest ih =>
    intro pre
    simp only [List.foldl_cons, List.map_cons, List.flatten_cons]
    rw [ih]
    simp [append_to_downloaded_files]

/-- Splitting the newline-terminated concatenation of break-free
identifiers recovers exactly those identifiers, in order. -/
theorem pySplitlines_of_joined (ids : List String)
    (h : ∀ s ∈ ids, ∀ c ∈ s.data, isLineBreak c = false) :
    pySplitlines (ids.map (fun s => s.data ++ ['\n'])).flatten = ids := by
  induction ids with
  | nil => rfl
  | cons s rest ih =>
    simp only [List.map_cons, List.flatten_cons]
    unfold pySplitlines
    rw [show s.data ++ ['\n'] ++ (rest.map (fun t => t.data ++ ['\n'])).flatten
        = s.data ++ '\n' :: (rest.map (fun t => t.data ++ ['\n'])).flatten
      by simp]
    rw [pySplitlinesAux_line s.data (h s (by simp)) []
      (rest.map (fun t => t.data ++ ['\n'])).flatten]
    have hs : String.mk ([].reverse ++ s.data) = s := by
      cases s
      simp
    rw [hs]
    have ih2 := ih (fun t ht c hc => h t (by simp [ht]) c hc)
    unfold pySplitlines at ih2
    rw [ih2]

/-- C10: appending any finite sequence of identifiers free of
line-boundary characters to an initially absent log via the record
operation, then loading, returns exactly the set of those identifiers. -/
theorem ledger_roundtrip (ids : List String)
    (h : ∀ s ∈ ids, ∀ c ∈ s.data, isLineBreak c = false) :
    load_downloaded_files
        ⟨true, true, ids.foldl append_to_downloaded_files []⟩
      = Except.ok ids.toFinset := by
  unfold load_downloaded_files
  simp only [if_true]
  rw [foldl_append_log ids []]
  simp only [List.nil_append]
  rw [pySplitlines_of_joined ids h]

/-- Witness for ledger_roundtrip on two plain identifiers. -/
theorem ledger_roundtrip_witness :
    load_downloaded_files
        ⟨true, true, ["a", "b"].foldl append_to_downloaded_files []⟩
      = Except.ok (["a", "b"].toFinset) :=
  ledger_roundtrip ["a", "b"] (by decide)

/-- Extraction and rebuilt-zip writes never touch the original zip
path. -/
theorem applyRepairOp_keeps_zipPath (st : RepairState) (op : RepairOp)
    (h : op ≠ RepairOp.replace) :
    (applyRepairOp st op).zipPath = st.zipPath := by
  cases op with
  | extract n =>
    cases hl : zipLookup st.zipPath n <;> simp [applyRepairOp, hl]
  | writeTemp n =>
    cases hl : zipLookup st.extractedDir n <;> simp [applyRepairOp, hl]
  | replace => exact absurd rfl h

/-- A run of replace-free operations leaves the original zip path
unchanged. -/
theorem foldl_keeps_zipPath :
    ∀ (ops : List RepairOp) (st : RepairState),
      (∀ op ∈ ops, op ≠ RepairOp.replace) →
      (ops.foldl applyRepairOp st).zipPath = st.zipPath := by
  intro ops
  induction ops with
  | nil =>
    intro st _
    rfl
  | cons op rest ih =>
    intro st h
    simp only [List.foldl_cons]
    rw [ih (applyRepairOp st op) (fun o ho => h o (by simp [ho]))]
    exact applyRepairOp_keeps_zipPath st op (h op (by simp))

/-- Running the extraction phase populates the scratch directory with the
entries found in the original zip, in attempt order. -/
theorem foldl_extracts :
    ∀ (names : List String) (st : RepairState),
      (names.map RepairOp.extract).foldl applyRepairOp st
        = ⟨st.extractedDir ++ names.filterMap
            (fun n => (zipLookup st.zipPath n).map (fun b => (n, b))),
           st.tempZip, st.zipPath⟩ := by
  intro names
  induction names with
  | nil =>
    intro st
    simp
  | cons n rest ih =>
    intro st
    simp only [List.map_cons, List.foldl_cons, List.filterMap_cons]
    cases hl : zipLookup st.zipPath n with
    | none =>
      have ha : applyRepairOp st (RepairOp.extract n) = st := by
        simp [applyRepairOp, hl]
      rw [ha, ih st]
      simp [hl]
    | some b =>
      have ha : applyRepairOp st (RepairOp.extract n)
          = ⟨st.extractedDir ++ [(n, b)], st.tempZip, st.zipPath⟩ := by
        simp [applyRepairOp, hl]
      rw [ha, ih ⟨st.extractedDir ++ [(n, b)], st.tempZip, st.zipPath⟩]
      simp [hl]

/-- Running the rebuild phase copies the scratch files into the rebuilt
zip at its temporary path. -/
theorem foldl_writes :
    ∀ (names : List String) (st : RepairState),
      (names.map RepairOp.writeTemp).foldl applyRepairOp st
        = ⟨st.extractedDir,
           st.tempZip ++ names.filterMap
            (fun n => (zipLookup st.extractedDir n).map (fun b => (n, b))),
           st.zipPath⟩ := by
  intro names
  induction names with
  | nil =>
    intro st
    simp
  | cons n rest ih =>
    intro st
    simp only [List.map_cons, List.foldl_cons, List.filterMap_cons]
    cases hl : zipLookup st.extractedDir n with
    | none =>
      have ha : applyRepairOp st (RepairOp.writeTemp n) = st := by
        simp [applyRepairOp, hl]
      rw [ha, ih st]
      simp [hl]
    | some b =>
      have ha : applyRepairOp st (RepairOp.writeTemp n)
          = ⟨st.extractedDir, st.tempZip ++ [(n, b)], st.zipPath⟩ := by
        simp [applyRepairOp, hl]
      rw [ha, ih ⟨st.extractedDir, st.tempZip ++ [(n, b)], st.zipPath⟩]
      simp [hl]

/-- Looking up the key of the head entry. -/
theorem zipLookup_cons_self (n : String) (b : Bytes)
    (L : List (String × Bytes)) :
    zipLookup ((n, b) :: L) n = some b := by
  simp [zipLookup, List.find?_cons]

/-- Looking up a key different from the head entry's key skips it. -/
theorem zipLookup_cons_ne (m n : String) (b : Bytes)
    (L : List (String × Bytes)) (h : m ≠ n) :
    zipLookup ((m, b) :: L) n = zipLookup L n := by
  simp [zipLookup, List.find?_cons, h]

/-- A name not among the extracted names is absent from the scratch
directory. -/
theorem zipLookup_filterMap_not_mem (Z : List (String × Bytes)) :
    ∀ (names : List String) (n : String), n ∉ names →
      zipLookup (names.filterMap
        (fun m => (zipLookup Z m).map (fun b => (m, b)))) n = none := by
  intro names
  induction names with
  | nil =>
    intro n _
    rfl
  | cons m rest ih =>
    intro n hn
    have hnm : m ≠ n := fun e => hn (by simp [e])
    have hnr : n ∉ rest := fun e => hn (by simp [e])
    simp only [List.filterMap_cons]
    cases hl : zipLookup Z m with
    | none =>
      simp only [hl, Option.map_none']
      exact ih n hnr
    | some b =>
      simp only [hl, Option.map_some']
      rw [zipLookup_cons_ne m n b _ hnm]
      exact ih n hnr

/-- Looking a name up in the scratch directory built from distinct names
agrees with looking it up in the original zip. -/
theorem zipLookup_filterMap_mem (Z : List (String × Bytes)) :
    ∀ (names : List String), names.Nodup → ∀ n ∈ names,
      zipLookup (names.filterMap
        (fun m => (zipLookup Z m).map (fun b => (m, b)))) n
        = zipLookup Z n := by
  intro names
  induction names with
  | nil =>
    intro _ n hn
    simp at hn
  | cons m rest ih =>
    intro hnd n hn
    have hnd2 : rest.Nodup := hnd.of_cons
    rcases List.mem_cons.mp hn with rfl | hn2
    · have hnr : n ∉ rest := (List.nodup_cons.mp hnd).1
      simp only [List.filterMap_cons]
      cases hl : zipLookup Z n with
      | none =>
        simp only [hl, Option.map_none']
        rw [zipLookup_filterMap_not_mem Z rest n hnr]
      | some b =>
        simp only [hl, Option.map_some']
        rw [zipLookup_cons_self n b _]
    · have hnm : m ≠ n := by
        intro e
        subst e
        exact (List.nodup_cons.mp hnd).1 hn2
      simp only [List.filterMap_cons]
      cases hl : zipLookup Z m with
      | none =>
        simp only [hl, Option.map_none']
        exact ih hnd2 n hn2
      | some b =>
        simp only [hl, Option.map_some']
        rw [zipLookup_cons_ne m n b _ hnm]
        exact ih hnd2 n hn2

/-- With distinct photo filenames, the extraction-attempt names are
distinct. -/
theorem extractNames_nodup (fs : RepairFS)
    (hp : (fs.photos.map Photo.filename).Nodup) :
    (extractNames fs).Nodup := by
  unfold extractNames
  exact hp.sublist ((List.filter_sublist _).map _)

/-- With distinct entry names, a successful lookup is exactly
membership. -/
theorem zipLookup_eq_some_iff (Z : List (String × Bytes)) :
    ∀ (n : String) (b : Bytes), (Z.map Prod.fst).Nodup →
      (zipLookup Z n = some b ↔ (n, b) ∈ Z) := by
  induction Z with
  | nil =>
    intro n b _
    simp [zipLookup]
  | cons e rest ih =>
    intro n b hz
    obtain ⟨m, c⟩ := e
    simp only [List.map_cons] at hz
    have hz1 : m ∉ rest.map Prod.fst := (List.nodup_cons.mp hz).1
    have hz2 : (rest.map Prod.fst).Nodup := (List.nodup_cons.mp hz).2
    by_cases hmn : m = n
    · subst hmn
      rw [zipLookup_cons_self m c rest]
      constructor
      · intro h
        have hcb : c = b := by
          injection h
        subst hcb
        exact List.mem_cons_self _ _
      · intro h
        rcases List.mem_cons.mp h with h1 | h2
        · have hbc : b = c := ((Prod.mk.injEq _ _ _ _).mp h1).2
          rw [hbc]
        · exact absurd (List.mem_map.mpr ⟨(m, b), h2, rfl⟩) hz1
    · rw [zipLookup_cons_ne m n c rest hmn]
      rw [ih n b hz2]
      constructor
      · exact fun h => List.mem_cons_of_mem _ h
      · intro h
        rcases List.mem_cons.mp h with h1 | h2
        · exact absurd ((Prod.mk.injEq _ _ _ _).mp h1).1.symm hmn
        · exact h2

/-- When the guard passes, the full repair run replaces the original zip
with the rebuilt one: the scratch files that were extracted, copied
through the temporary path. -/
theorem update_metadata_result (fs : RepairFS)
    (hg : fs.ledgerExists = true) (hg2 : fs.zipExists = true) :
    update_metadata_in_zip fs
      = ((extractNames fs).filter
          (fun n => (zipLookup fs.zipEntries n).isSome)).filterMap
          (fun n => (zipLookup
            ((extractNames fs).filterMap
              (fun m => (zipLookup fs.zipEntries m).map
                (fun b => (m, b)))) n).map
            (fun b => (n, b))) := by
  unfold update_metadata_in_zip repairOps
  rw [hg, hg2]
  simp only [Bool.and_self, if_true]
  rw [List.foldl_append, List.foldl_append, foldl_extracts, foldl_writes]
  simp [applyRepairOp]

/-- C8 is false of the code: with a ledger recording "a" and the zip
containing the entry "a", but "a" no longer present in the remote
listing, the repair pass rebuilds an empty container — the recorded entry
is dropped, not preserved. -/
theorem metadata_repair_cex :
    update_metadata_in_zip ⟨true, true, {"a"}, [("a", [1])], []⟩ = [] ∧
    "a" ∈ ({"a"} : Finset String) ∧
    ("a", [1]) ∈ [("a", ([1] : Bytes))] := by
  decide

/-- C8 (amended): the repair pass runs only when both the completion log
and the zip container exist, otherwise changing nothing; when it runs
(with distinct zip entry names and distinct listed filenames), the
rebuilt container holds exactly the original entries whose name is both
recorded in the ledger and carried by a photo of the current remote
listing — recorded entries absent from the listing are dropped — and the
original container is replaced only by the final operation of the trace,
so stopping anywhere before that leaves the original container intact. -/
theorem metadata_repair_semantics (fs : RepairFS)
    (hz : (fs.zipEntries.map Prod.fst).Nodup)
    (hp : (fs.photos.map Photo.filename).Nodup) :
    (¬(fs.ledgerExists = true ∧ fs.zipExists = true) →
      update_metadata_in_zip fs = fs.zipEntries) ∧
    (fs.ledgerExists = true → fs.zipExists = true →
      ∀ n b, ((n, b) ∈ update_metadata_in_zip fs ↔
        ((n, b) ∈ fs.zipEntries ∧ n ∈ fs.ledger ∧
          ∃ p ∈ fs.photos, p.filename = n))) ∧
    (∀ k, k < (repairOps fs).length →
      update_metadata_in_zip_upto fs k = fs.zipEntries) ∧
    update_metadata_in_zip_upto fs (repairOps fs).length
      = update_metadata_in_zip fs := by
  refine ⟨?_, ?_, ?_, ?_⟩
  · intro hng
    have hb : (fs.ledgerExists && fs.zipExists) = false := by
      cases hLE : fs.ledgerExists <;> cases hZE : fs.zipExists <;> simp_all
    unfold update_metadata_in_zip
    rw [hb]
    simp
  · intro hg hg2 n b
    rw [update_metadata_result fs hg hg2]
    constructor
    · intro hmem
      rw [List.mem_filterMap] at hmem
      obtain ⟨a, ha, hfa⟩ := hmem
      rw [List.mem_filter] at ha
      obtain ⟨haE, _⟩ := ha
      rw [zipLookup_filterMap_mem fs.zipEntries (extractNames fs)
        (extractNames_nodup fs hp) a haE] at hfa
      cases hZn : zipLookup fs.zipEntries a with
      | none =>
        rw [hZn] at hfa
        simp at hfa
      | some c =>
        rw [hZn] at hfa
        simp only [Option.map_some', Option.some.injEq] at hfa
        have han : a = n := ((Prod.mk.injEq _ _ _ _).mp hfa).1
        have hcb : c = b := ((Prod.mk.injEq _ _ _ _).mp hfa).2
        rw [han, hcb] at hZn
        rw [han] at haE
        unfold extractNames at haE
        rw [List.mem_map] at haE
        obtain ⟨p, hp2, hpn⟩ := haE
        rw [List.mem_filter] at hp2
        refine ⟨(zipLookup_eq_some_iff fs.zipEntries n b hz).mp hZn, ?_, ?_⟩
        · rw [← hpn]
          exact of_decide_eq_true hp2.2
        · exact ⟨p, hp2.1, hpn⟩
    · intro hmem
      obtain ⟨hmemZ, hled, p, hpmem, hpn⟩ := hmem
      have hZn : zipLookup fs.zipEntries n = some b :=
        (zipLookup_eq_some_iff fs.zipEntries n b hz).mpr hmemZ
      have haE : n ∈ extractNames fs := by
        unfold extractNames
        refine List.mem_map.mpr ⟨p, List.mem_filter.mpr ⟨hpmem, ?_⟩, hpn⟩
        rw [hpn]
        exact decide_eq_true hled
      rw [List.mem_filterMap]
      refine ⟨n, List.mem_filter.mpr ⟨haE, by simp [hZn]⟩, ?_⟩
      rw [zipLookup_filterMap_mem fs.zipEntries (extractNames fs)
        (extractNames_nodup fs hp) n haE, hZn]
      rfl
  · intro k hk
    unfold update_metadata_in_zip_upto
    cases hb : (fs.ledgerExists && fs.zipExists) with
    | false => simp
    | true =>
      simp only [if_true]
      apply foldl_keeps_zipPath
      intro op hop
      have hop2 : op ∈ (extractNames fs).map RepairOp.extract
          ++ ((extractNames fs).filter
            (fun n => (zipLookup fs.zipEntries n).isSome)).map
              RepairOp.writeTemp := by
        have hlen : (repairOps fs).length
            = ((extractNames fs).map RepairOp.extract
              ++ ((extractNames fs).filter
                (fun n => (zipLookup fs.zipEntries n).isSome)).map
                  RepairOp.writeTemp).length + 1 := by
          unfold repairOps
          simp only [List.length_append, List.length_map, List.length_cons,
            List.length_nil]
        have htake : (repairOps fs).take k
            = ((extractNames fs).map RepairOp.extract
              ++ ((extractNames fs).filter
                (fun n => (zipLookup fs.zipEntries n).isSome)).map
                  RepairOp.writeTemp).take k := by
          unfold repairOps
          exact List.take_append_of_le_length (by
            rw [hlen] at hk
            omega)
        rw [htake] at hop
        exact List.take_subset k _ hop
      rcases List.mem_append.mp hop2 with hA | hB
      · obtain ⟨a, _, rfl⟩ := List.mem_map.mp hA
        simp
      · obtain ⟨a, _, rfl⟩ := List.mem_map.mp hB
        simp
  · unfold update_metadata_in_zip_upto update_metadata_in_zip
    rw [List.take_length]

/-- Witness for metadata_repair_semantics on a one-entry zip whose photo
is still listed. -/
theorem metadata_repair_semantics_witness :
    (¬((true : Bool) = true ∧ (true : Bool) = true) →
      update_metadata_in_zip ⟨true, true, {"a"}, [("a", [1])], [⟨"a", 7⟩]⟩
        = [("a", [1])]) ∧
    ((true : Bool) = true → (true : Bool) = true →
      ∀ n b, ((n, b) ∈ update_metadata_in_zip
          ⟨true, true, {"a"}, [("a", [1])], [⟨"a", 7⟩]⟩ ↔
        ((n, b) ∈ [("a", ([1] : Bytes))] ∧ n ∈ ({"a"} : Finset String) ∧
          ∃ p ∈ [(⟨"a", 7⟩ : Photo)], p.filename = n))) ∧
    (∀ k, k < (repairOps ⟨true, true, {"a"}, [("a", [1])], [⟨"a", 7⟩]⟩).length →
      update_metadata_in_zip_upto
          ⟨true, true, {"a"}, [("a", [1])], [⟨"a", 7⟩]⟩ k
        = [("a", [1])]) ∧
    update_metadata_in_zip_upto ⟨true, true, {"a"}, [("a", [1])], [⟨"a", 7⟩]⟩
        (repairOps ⟨true, true, {"a"}, [("a", [1])], [⟨"a", 7⟩]⟩).length
      = update_metadata_in_zip ⟨true, true, {"a"}, [("a", [1])], [⟨"a", 7⟩]⟩ :=
  metadata_repair_semantics ⟨true, true, {"a"}, [("a", [1])], [⟨"a", 7⟩]⟩
    (by decide) (by decide)

end ICloudMedia
